import Mathlib

/-!
Shallow embedding of the validation/normalization core of `task2.py`
(class `ETLProcessor`).  Python scalars coming out of the spreadsheet are
modelled by `PyVal`; machine floats are modelled as exact rationals (all
claim-relevant values are small exact decimals).  The whitespace class of
Python's `\s` is modelled by `Char.isWhitespace` (space, tab, CR, LF) and
`\d` / `\w` by their ASCII readings; every input exercised here stays in
that fragment.
-/

/-- Python scalar values as they reach the validators: `None`, the float
`nan` used by pandas as the missing-cell marker, strings, ints and floats
(floats modelled as exact rationals). -/
inductive PyVal where
  | pynone : PyVal
  | nan : PyVal
  | str : String → PyVal
  | int : Int → PyVal
  | float : ℚ → PyVal
deriving DecidableEq

/-- Model of `pd.isna`: true exactly on `None` and the float `nan`. -/
def isna : PyVal → Bool
  | .pynone => true
  | .nan => true
  | _ => false

/-- Python truthiness (`bool(v)`): `None` is falsy, `nan` is truthy (it is a
nonzero float), a string is truthy iff nonempty, a number iff nonzero. -/
def truthy : PyVal → Bool
  | .pynone => false
  | .nan => true
  | .str s => !s.isEmpty
  | .int n => n != 0
  | .float q => q != 0

/-- Model of Python `str` on a float: the float is an exact rational whose
denominator divides a power of ten (true of every decimal literal used in
the claims); it is printed as a minimal decimal with at least one
fractional digit, mirroring `str(17.5) = "17.5"`, `str(30.0) = "30.0"`.
The fallback arm is unreachable for genuine float values. -/
def pyFloatStr (q : ℚ) : String :=
  match (List.range 1101).find? (fun k => (q * (10 : ℚ) ^ k).den = 1) with
  | some 0 => toString q.num ++ ".0"
  | some k =>
      let m : Nat := (q * (10 : ℚ) ^ k).num.natAbs
      let t0 := toString m
      let t := String.mk (List.replicate (k + 1 - t0.length) '0') ++ t0
      (if q < 0 then "-" else "") ++ t.take (t.length - k) ++ "." ++ t.drop (t.length - k)
  | none => toString q

/-- Model of Python `str(v)`: `str(None) = "None"`, `str(float("nan")) = "nan"`,
identity on strings, decimal notation on ints. -/
def pyStr : PyVal → String
  | .pynone => "None"
  | .nan => "nan"
  | .str s => s
  | .int n => toString n
  | .float q => pyFloatStr q

/-- Whitespace class used by `re.sub(r"\s+", " ", ...)` and `str.strip()`,
modelled by the ASCII whitespace characters. -/
def isSpace (c : Char) : Bool := c.isWhitespace

/-- Model of `re.sub(r"\s+", " ", text)`: every maximal run of whitespace is
replaced by a single space.  The flag records whether we are inside a run
whose replacement space was already emitted. -/
def subWSAux : Bool → List Char → List Char
  | _, [] => []
  | inRun, c :: cs =>
      if isSpace c then
        if inRun then subWSAux true cs else ' ' :: subWSAux true cs
      else c :: subWSAux false cs

def subWS (l : List Char) : List Char := subWSAux false l

/-- Model of `str.strip()`: drop whitespace from both ends. -/
def stripWS (l : List Char) : List Char :=
  ((l.dropWhile isSpace).reverse.dropWhile isSpace).reverse

/-- `re.sub(r"\s+", " ", text).strip()`, the body of the string branch of
`ETLProcessor.remove_double_spaces` (task2.py lines 97-102). -/
def collapse (l : List Char) : List Char := stripWS (subWS l)

/-- `ETLProcessor.remove_double_spaces` (task2.py lines 97-102): collapse
whitespace on strings; `None` becomes `""`; any other value is stringified
verbatim (so the missing-cell marker `nan` becomes the string `"nan"`). -/
def remove_double_spaces (text : PyVal) : String :=
  match text with
  | .str s => String.mk (collapse s.data)
  | .pynone => ""
  | v => pyStr v

/-- ASCII reading of the regex class `\w`. -/
def isWordChar (c : Char) : Bool := c.isAlphanum || c = '_'

/-- The regex class `[\w\.-]` of the email pattern. -/
def isEmailChar (c : Char) : Bool := isWordChar c || c = '.' || c = '-'

/-- Decision procedure for the sub-pattern `[\w\.-]+\.\w+` anchored at both
ends of `t`: some split point `j` carries a dot with a nonempty all-class
prefix before it and a nonempty all-word suffix after it.  A backtracking
regex match succeeds exactly when such a split exists. -/
def emailTail (t : List Char) : Bool :=
  (List.range t.length).any fun j =>
    t[j]? == some '.' && !(t.take j).isEmpty && (t.take j).all isEmailChar
      && !(t.drop (j + 1)).isEmpty && (t.drop (j + 1)).all isWordChar

/-- Decision procedure for `re.match(r"^[\w\.-]+@[\w\.-]+\.\w+$", ·)`
(task2.py line 111): some position `i` carries the `@` with a nonempty
all-class local part before it and a tail matching `[\w\.-]+\.\w+` after
it.  (`$` can also match before a final newline in Python, but every
string tested here has been stripped, so that case is unreachable.) -/
def emailMatch (l : List Char) : Bool :=
  (List.range l.length).any fun i =>
    l[i]? == some '@' && !(l.take i).isEmpty && (l.take i).all isEmailChar
      && emailTail (l.drop (i + 1))

/-- `ETLProcessor.validate_email` (task2.py lines 104-115). -/
def validate_email (email : PyVal) : Option String × String :=
  if isna email || !truthy email then (none, "Email is empty")
  else
    let email_clean := remove_double_spaces (PyVal.str (pyStr email))
    if emailMatch email_clean.data then (some email_clean, "")
    else (none, "Invalid email format: " ++ email_clean)

/-- Model of `str.startswith`. -/
def strStartsWith (s p : String) : Bool := p.data.isPrefixOf s.data

/-- The `COUNTRY_CODES` table of task2.py lines 55-76, in dict insertion
order (country, dialing codes, expected total digit length). -/
def COUNTRY_CODES : List (String × List String × Nat) :=
  [("RU", ["7"], 11), ("UA", ["380"], 12), ("BY", ["375"], 12),
   ("KZ", ["7"], 11), ("UZ", ["998"], 12), ("AM", ["374"], 11),
   ("AZ", ["994"], 12), ("GE", ["995"], 12), ("MD", ["373"], 11),
   ("KG", ["996"], 12), ("EE", ["372"], 11), ("LV", ["371"], 11),
   ("LT", ["370"], 11), ("PL", ["48"], 11), ("DE", ["49"], 12),
   ("FR", ["33"], 11), ("IT", ["39"], 11), ("ES", ["34"], 11),
   ("GB", ["44"], 12), ("AE", ["971"], 12)]

/-- The inner `for code in info['codes']` loop of `_validate_country_code`:
first code of the entry whose `+code` is a literal prefix of `s`. -/
def code_find (s : String) (codes : List String) : Option String :=
  codes.find? fun code => strStartsWith s ("+" ++ code)

/-- The outer loop of `_validate_country_code` (task2.py lines 159-168):
the first entry with a matching code decides the answer; the arithmetic
`len(code) + 1 + (info['length'] - len(code))` is carried out in ℤ exactly
as Python does. -/
def check_codes (s : String) : List (String × List String × Nat) → String
  | [] => "Unknown country code"
  | (country, codes, len) :: rest =>
      match code_find s codes with
      | some code =>
          if (s.length : Int) = (code.length : Int) + 1 + ((len : Int) - (code.length : Int))
          then "" else "Invalid length for " ++ country
      | none => check_codes s rest

/-- `ETLProcessor._validate_country_code` (task2.py lines 153-168). -/
def validate_country_code (phone_clean : String) : String :=
  if phone_clean.isEmpty || !strStartsWith phone_clean "+" then "Missing country code"
  else check_codes phone_clean COUNTRY_CODES

/-- `ETLProcessor._format_russian_phone` (task2.py lines 139-151); the
digit string is carried as a list of characters. -/
def format_russian_phone (phone_digits : List Char) (phone_raw : String) : String :=
  if phone_digits.head? = some '8' ∧ phone_digits.length = 11 then
    String.mk ('+' :: '7' :: phone_digits.tail)
  else if phone_digits.head? = some '7' ∧ phone_digits.length = 11 then
    String.mk ('+' :: '7' :: phone_digits.tail)
  else if phone_digits.head? = some '9' ∧ phone_digits.length = 10 then
    String.mk ('+' :: '7' :: phone_digits)
  else if strStartsWith phone_raw "+" then
    String.mk ('+' :: phone_digits)
  else if !phone_digits.isEmpty then
    String.mk ('+' :: phone_digits)
  else
    String.mk phone_digits

/-- `ETLProcessor.validate_phone` (task2.py lines 117-137);
`re.sub(r"\D", "", phone_raw)` is the digit filter. -/
def validate_phone (phone : PyVal) : Option String × String :=
  if isna phone || !truthy phone then (none, "Phone is empty")
  else
    let phone_raw := remove_double_spaces (PyVal.str (pyStr phone))
    let phone_digits := phone_raw.data.filter Char.isDigit
    if phone_digits.length < 10 then (none, "Phone too short: " ++ phone_raw)
    else
      let phone_clean := format_russian_phone phone_digits phone_raw
      let validation_error := validate_country_code phone_clean
      if validation_error ≠ "" then
        (none, "Invalid phone '" ++ phone_raw ++ "': " ++ validation_error)
      else (some phone_clean, "")

/-- Value of a digit string (helper for the float parser). -/
def digitsToNat (l : List Char) : Nat := l.foldl (fun a c => a * 10 + (c.toNat - 48)) 0

deriving instance DecidableEq for Except

/-- The result of Python `float(...)`: a finite value (modelled as an
exact rational), one of the two infinities, or `nan`. -/
inductive PyFloat where
  | finite : ℚ → PyFloat
  | pinf : PyFloat
  | ninf : PyFloat
  | nan : PyFloat
deriving DecidableEq

/-- No two adjacent underscores (part of the PEP 515 digit-group rule). -/
def noAdjU : List Char → Bool
  | [] => true
  | [_] => true
  | a :: b :: t => !(a == '_' && b == '_') && noAdjU (b :: t)

/-- A digit group as Python `float` accepts it (PEP 515): nonempty, only
digits and underscores, starting and ending with a digit, no two adjacent
underscores — so every underscore sits between two digits. -/
def groupOk (l : List Char) : Bool :=
  !l.isEmpty && l.all (fun c => c.isDigit || c == '_') &&
    (match l.head? with | some c => c.isDigit | none => false) &&
    (match l.getLast? with | some c => c.isDigit | none => false) &&
    noAdjU l

/-- Drop the underscores of a digit group. -/
def stripU (l : List Char) : List Char := l.filter fun c => !(c == '_')

/-- Exact value `sgn * (digits of ip, then fp, as an integer) * 10 ^ (e -
number of fraction digits)`, built with `mkRat` so it stays
kernel-executable. -/
def buildVal (sgn : Int) (ip fp : List Char) (exp10 : Int) : ℚ :=
  let m : Int := digitsToNat (stripU ip ++ stripU fp)
  let e : Int := exp10 - (stripU fp).length
  if 0 ≤ e then mkRat (sgn * m * 10 ^ e.toNat) 1
  else mkRat (sgn * m) (10 ^ (-e).toNat)

/-- Model of Python `float(s)` on a string: surrounding whitespace is
stripped, an optional sign is read, then either the case-insensitive
words `inf`/`infinity`/`nan`, or a decimal mantissa (optional integer
part, optional dot and fraction part, at least one digit, PEP 515
underscores) with an optional `e`/`E` exponent.  The value is exact (a
rational), so the overflow of astronomically large finite decimal
strings to the float infinity is not modelled; the explicit infinity
words are. -/
def parseFloat? (s : String) : Option PyFloat :=
  let l := stripWS s.data
  let sl : Int × List Char :=
    match l with
    | '-' :: t => (-1, t)
    | '+' :: t => (1, t)
    | t => (1, t)
  let lower := sl.2.map Char.toLower
  if lower = "inf".data ∨ lower = "infinity".data then
    some (if sl.1 = 1 then PyFloat.pinf else PyFloat.ninf)
  else if lower = "nan".data then some PyFloat.nan
  else
    let mpart := sl.2.takeWhile fun c => !(c == 'e' || c == 'E')
    let epart := sl.2.drop mpart.length
    let ip := mpart.takeWhile fun c => !(c == '.')
    let fp := (mpart.drop ip.length).tail
    let mantOk := (ip.isEmpty || groupOk ip) && (fp.isEmpty || groupOk fp) &&
      !(ip.isEmpty && fp.isEmpty)
    match epart with
    | [] => if mantOk then some (PyFloat.finite (buildVal sl.1 ip fp 0)) else none
    | _ :: etail =>
        let es : Int × List Char :=
          match etail with
          | '-' :: t => (-1, t)
          | '+' :: t => (1, t)
          | t => (1, t)
        if mantOk && groupOk es.2 then
          some (PyFloat.finite (buildVal sl.1 ip fp (es.1 * (digitsToNat (stripU es.2) : Int))))
        else none

/-- Model of `float(age)` over `PyVal`: numbers convert to their exact
value, strings parse per `parseFloat?`, the float `nan` is `nan` itself,
and `None` raises `TypeError` (caught by the validator's `except`),
modelled as `none`. -/
def pyFloat : PyVal → Option PyFloat
  | .int n => some (PyFloat.finite (mkRat n 1))
  | .float q => some (PyFloat.finite q)
  | .str s => parseFloat? s
  | .nan => some PyFloat.nan
  | .pynone => none

/-- Model of Python `round` (banker's rounding, half to even).  The
fractional part `q - ⌊q⌋ = (q.num - ⌊q⌋ * q.den) / q.den` is compared with
`1/2` in exact integer arithmetic (`2 * (q.num - ⌊q⌋ * q.den)` against
`q.den`), which keeps the definition kernel-executable. -/
def pyRound (q : ℚ) : Int :=
  let f := Rat.floor q
  let r2 := 2 * (q.num - f * (q.den : Int))
  if r2 < (q.den : Int) then f
  else if (q.den : Int) < r2 then f + 1
  else if f % 2 = 0 then f else f + 1

/-- `ETLProcessor.validate_age` (task2.py lines 170-184).  The `try`
block computes `float(age)` then `round`; `except (ValueError,
TypeError)` catches a failed conversion (`ValueError`/`TypeError` from
`float`) and the `ValueError` that `round` raises on `nan` — but NOT the
`OverflowError` that `round` raises on an infinite value, which escapes
the function; that uncaught path is modelled as `Except.error ()`. -/
def validate_age (age : PyVal) : Except Unit (Option Int × String) :=
  if isna age || age = PyVal.str "" then Except.ok (none, "Age is empty")
  else
    match pyFloat age with
    | some (PyFloat.finite q) =>
        let age_int := pyRound q
        if 18 ≤ age_int ∧ age_int ≤ 120 then Except.ok (some age_int, "")
        else Except.ok (none, "Age " ++ toString age_int ++ " out of range (18-120)")
    | some PyFloat.pinf => Except.error ()
    | some PyFloat.ninf => Except.error ()
    | some PyFloat.nan => Except.ok (none, "Invalid age format: " ++ pyStr age)
    | none => Except.ok (none, "Invalid age format: " ++ pyStr age)

/-- One raw record as `_validate_dataframe` sees it: the value of
`row.get(field)` for each of the six canonical columns.  A blank
spreadsheet cell is the `nan` marker; a column missing from the table
makes `row.get` return `None`. -/
structure RawRecord where
  full_name : PyVal
  phone : PyVal
  country : PyVal
  region : PyVal
  email : PyVal
  age : PyVal
deriving DecidableEq

/-- The required-field emptiness test of task2.py line 225:
`pd.isna(row.get(field)) or not str(row.get(field)).strip()`. -/
def req_empty (v : PyVal) : Bool :=
  isna v || (stripWS (pyStr v).data).isEmpty

/-- The `row_errors` list built by the loop body of `_validate_dataframe`
(task2.py lines 219-245) once `validate_age` has returned normally with
the pair `agep`, in evaluation order: required fields `full_name`,
`country`, `region`, then the email, phone and age diagnostics (each
appended only when nonempty). -/
def row_errors (r : RawRecord) (agep : Option Int × String) : List String :=
  (if req_empty r.full_name then ["full_name is empty"] else []) ++
  (if req_empty r.country then ["country is empty"] else []) ++
  (if req_empty r.region then ["region is empty"] else []) ++
  (if (validate_email r.email).2 ≠ "" then [(validate_email r.email).2] else []) ++
  (if (validate_phone r.phone).2 ≠ "" then [(validate_phone r.phone).2] else []) ++
  (if agep.2 ≠ "" then [agep.2] else [])

/-- Model of `"; ".join(l)`. -/
def joinSep (sep : String) : List String → String
  | [] => ""
  | [x] => x
  | x :: xs => x ++ sep ++ joinSep sep xs

/-- One row of the canonical output table: `full_name`, `country` and
`region` keep whatever value the row carried, while `email`, `phone`,
`age` are replaced by the validator outputs (absent on failure) and
`errors` holds the joined diagnostics (task2.py lines 246-252). -/
structure CanonicalRecord where
  full_name : PyVal
  phone : Option String
  country : PyVal
  region : PyVal
  email : Option String
  age : Option Int
  errors : String
deriving DecidableEq

/-- The per-row effect of `_validate_dataframe` (task2.py lines 212-254):
when `validate_age` raises (the uncaught `OverflowError`), the exception
propagates out of the row loop; otherwise the canonical row is built and
`errors` is `"; ".join(row_errors) if row_errors else ""`. -/
def validate_row (r : RawRecord) : Except Unit CanonicalRecord :=
  match validate_age r.age with
  | Except.error e => Except.error e
  | Except.ok agep =>
      Except.ok
        { full_name := r.full_name
          phone := (validate_phone r.phone).1
          country := r.country
          region := r.region
          email := (validate_email r.email).1
          age := agep.1
          errors := match row_errors r agep with
                    | [] => ""
                    | ds => joinSep "; " ds }

/-- The column-cleaning loop of `extract_data` (task2.py lines 200-204):
`remove_double_spaces` is applied to the five string columns (not to
`age`), so after this step every string-column value is a string. -/
def clean_record (r : RawRecord) : RawRecord :=
  { full_name := PyVal.str (remove_double_spaces r.full_name)
    phone := PyVal.str (remove_double_spaces r.phone)
    country := PyVal.str (remove_double_spaces r.country)
    region := PyVal.str (remove_double_spaces r.region)
    email := PyVal.str (remove_double_spaces r.email)
    age := r.age }

/-- The row loop of `_validate_dataframe` over a list of records: rows
are processed in input order, and an uncaught exception from any row
aborts the whole extraction. -/
def extract_rows : List RawRecord → Except Unit (List CanonicalRecord)
  | [] => Except.ok []
  | r :: rest =>
      match validate_row r with
      | Except.error e => Except.error e
      | Except.ok c =>
          match extract_rows rest with
          | Except.error e => Except.error e
          | Except.ok cs => Except.ok (c :: cs)

/-- The row-wise content of `extract_data` (task2.py lines 186-210):
clean the string columns, then validate every row in order. -/
def extract_data (rows : List RawRecord) : Except Unit (List CanonicalRecord) :=
  extract_rows (rows.map clean_record)

/-- The `COLUMN_MAP` rename table (task2.py lines 30-37), in dict
insertion order. -/
def COLUMN_MAP : List (String × String) :=
  [("ФИО", "full_name"), ("телефон", "phone"), ("страна проживания", "country"),
   ("район проживания", "region"), ("email", "email"), ("возраст", "age")]

/-- The column selection `df[list(COLUMN_MAP.values()) + ['errors']]`
returned by `extract_data` (task2.py line 210): exactly the renamed
columns, in `COLUMN_MAP` order, followed by `errors`; every other column
is dropped. -/
def output_columns : List String := COLUMN_MAP.map Prod.snd ++ ["errors"]

lemma str_ne_empty_of_data {s : String} (h : s.data ≠ []) : s ≠ "" := by
  intro he
  subst he
  exact h rfl

lemma data_ne_nil_of_ne_empty {s : String} (h : s ≠ "") : s.data ≠ [] := by
  intro hd
  apply h
  cases s with
  | mk l => cases hd; rfl

lemma append_ne_empty_left (s t : String) (h : s.data ≠ []) : s ++ t ≠ "" := by
  intro he
  have hd := congrArg String.data he
  rw [String.data_append] at hd
  have hnil : s.data ++ t.data = ([] : List Char) := hd
  exact h (List.append_eq_nil.mp hnil).1

lemma append_data_ne_left (s t : String) (h : s.data ≠ []) : (s ++ t).data ≠ [] := by
  rw [String.data_append]
  intro hnil
  exact h (List.append_eq_nil.mp hnil).1

lemma validate_row_ok (r : RawRecord) (agep : Option Int × String)
    (h : validate_age r.age = Except.ok agep) :
    validate_row r = Except.ok
      { full_name := r.full_name
        phone := (validate_phone r.phone).1
        country := r.country
        region := r.region
        email := (validate_email r.email).1
        age := agep.1
        errors := joinSep "; " (row_errors r agep) } := by
  unfold validate_row
  rw [h]
  cases hre : row_errors r agep with
  | nil => simp only [hre]; rfl
  | cons a t => simp only [hre]

lemma mem_ite_singleton {c : Prop} [Decidable c] {x d : String} :
    d ∈ (if c then [x] else []) ↔ c ∧ d = x := by
  split <;> simp_all

lemma mem_row_errors_ne (r : RawRecord) (agep : Option Int × String) :
    ∀ d ∈ row_errors r agep, d ≠ "" := by
  intro d hd
  simp only [row_errors, List.mem_append, mem_ite_singleton] at hd
  rcases hd with ((((⟨hc, rfl⟩ | ⟨hc, rfl⟩) | ⟨hc, rfl⟩) | ⟨hc, rfl⟩) | ⟨hc, rfl⟩) | ⟨hc, rfl⟩
  · decide
  · decide
  · decide
  · exact hc
  · exact hc
  · exact hc

/-- A raw record whose age cell holds the string "inf"; every other field
is valid. -/
def c1_rec : RawRecord :=
  { full_name := PyVal.str "A", phone := PyVal.str "89261234567",
    country := PyVal.str "R", region := PyVal.str "M",
    email := PyVal.str "a@b.c", age := PyVal.str "inf" }

/-- C1 (code bug): contrary to the claim — and to the design statement
that the core has no fatal error path — an age cell holding "inf" (or
"Infinity") makes `validate_age` raise: `float("inf")` succeeds and
`round` then raises `OverflowError`, which `except (ValueError,
TypeError)` does not catch, so the exception escapes the validator and
aborts the whole extraction instead of producing a
(value-or-absent, diagnostic) result. -/
theorem age_overflow_uncaught :
    validate_age (PyVal.str "inf") = Except.error () ∧
    validate_age (PyVal.str "Infinity") = Except.error () ∧
    validate_row c1_rec = Except.error () ∧
    extract_data [c1_rec] = Except.error () :=
  ⟨by decide, by decide, by decide, by decide⟩

lemma joinSep_eq_empty_iff (ds : List String) (h : ∀ d ∈ ds, d ≠ "") :
    joinSep "; " ds = "" ↔ ds = [] := by
  cases ds with
  | nil => simp [joinSep]
  | cons x xs =>
      cases xs with
      | nil =>
          simp only [joinSep]
          exact ⟨fun hx => absurd hx (h x (by simp)), fun hx => by cases hx⟩
      | cons y ys =>
          simp only [joinSep]
          constructor
          · intro hx
            refine absurd hx (append_ne_empty_left _ _ ?_)
            rw [String.data_append]
            intro hnil
            exact data_ne_nil_of_ne_empty (h x (by simp)) (List.append_eq_nil.mp hnil).1
          · intro hx
            cases hx

lemma ite_singleton_eq_nil_iff {c : Prop} [Decidable c] {x : String} :
    (if c then [x] else []) = [] ↔ ¬c := by
  split <;> simp_all

lemma row_errors_nil_iff (r : RawRecord) (agep : Option Int × String) :
    row_errors r agep = [] ↔
      (req_empty r.full_name = false ∧ req_empty r.country = false ∧
       req_empty r.region = false ∧ (validate_email r.email).2 = "" ∧
       (validate_phone r.phone).2 = "" ∧ agep.2 = "") := by
  simp only [row_errors, List.append_eq_nil, ite_singleton_eq_nil_iff,
    Bool.not_eq_true, not_not, and_assoc]

/-- C2: for every record on which the record validator returns (the age
validator returned the pair `agep` rather than raising), the resulting
record's `errors` field is empty iff all six fields validated
successfully (the three required fields are non-blank and the email,
phone and age diagnostics are empty); and `errors` is exactly the
`"; "`-join of the diagnostics in the fixed evaluation order full_name,
country, region, email, phone, age (the order in which `row_errors` is
built). -/
theorem errors_empty_iff_all_valid :
    ∀ (r : RawRecord) (agep : Option Int × String),
      validate_age r.age = Except.ok agep →
      ∃ c : CanonicalRecord, validate_row r = Except.ok c ∧
        (c.errors = "" ↔
          (req_empty r.full_name = false ∧ req_empty r.country = false ∧
           req_empty r.region = false ∧ (validate_email r.email).2 = "" ∧
           (validate_phone r.phone).2 = "" ∧ agep.2 = "")) ∧
        c.errors = joinSep "; " (row_errors r agep) := by
  intro r agep h
  refine ⟨_, validate_row_ok r agep h, ?_, rfl⟩
  show joinSep "; " (row_errors r agep) = "" ↔ _
  rw [joinSep_eq_empty_iff _ (mem_row_errors_ne r agep)]
  exact row_errors_nil_iff r agep

/-- A fully valid raw record used to instantiate the record-level
theorems. -/
def c2_rec : RawRecord :=
  { full_name := PyVal.str "Ann", phone := PyVal.str "89261234567",
    country := PyVal.str "Russia", region := PyVal.str "Moscow",
    email := PyVal.str "a@b.c", age := PyVal.int 30 }

/-- Witness for `errors_empty_iff_all_valid`: the record-level iff at a
concrete record whose age validator returns (some 30, ""). -/
theorem errors_empty_iff_all_valid_witness :
    ∃ c : CanonicalRecord, validate_row c2_rec = Except.ok c ∧
      (c.errors = "" ↔
        (req_empty c2_rec.full_name = false ∧ req_empty c2_rec.country = false ∧
         req_empty c2_rec.region = false ∧ (validate_email c2_rec.email).2 = "" ∧
         (validate_phone c2_rec.phone).2 = "" ∧ ((some 30 : Option Int), "").2 = "")) ∧
      c.errors = joinSep "; " (row_errors c2_rec ((some 30 : Option Int), "")) :=
  errors_empty_iff_all_valid c2_rec ((some 30 : Option Int), "") (by decide)

lemma extract_rows_ok :
    ∀ (rs : List RawRecord) (out : List CanonicalRecord),
      extract_rows rs = Except.ok out →
      out.length = rs.length ∧
      ∀ i : Nat, (rs[i]?).map validate_row = (out[i]?).map Except.ok := by
  intro rs
  induction rs with
  | nil =>
      intro out h
      have hout : out = [] := by
        have h' : Except.ok ([] : List CanonicalRecord) = Except.ok out := h
        injection h' with h'
        exact h'.symm
      subst hout
      exact ⟨rfl, fun i => rfl⟩
  | cons r rest ih =>
      intro out h
      unfold extract_rows at h
      cases hv : validate_row r with
      | error e =>
          simp only [hv] at h
          exact Except.noConfusion h
      | ok c =>
          simp only [hv] at h
          cases hrest : extract_rows rest with
          | error e =>
              simp only [hrest] at h
              exact Except.noConfusion h
          | ok cs =>
              simp only [hrest] at h
              injection h with h'
              subst h'
              obtain ⟨hlen, hpt⟩ := ih cs hrest
              refine ⟨by simp [hlen], fun i => ?_⟩
              cases i with
              | zero => simp [hv]
              | succ n => simpa using hpt n

/-- C9: whenever processing completes, it yields exactly one canonical
record per raw record, in input order (record `i` of the output is the
validation of cleaned record `i` of the input), and the output table's
columns are exactly full_name, phone, country, region, email, age,
errors in that order, any column outside the rename map being dropped. -/
theorem extract_data_shape :
    (∀ (rows : List RawRecord) (out : List CanonicalRecord),
      extract_data rows = Except.ok out →
      out.length = rows.length ∧
      ∀ i : Nat, (rows[i]?).map (fun r => validate_row (clean_record r)) =
        (out[i]?).map Except.ok) ∧
    output_columns = ["full_name", "phone", "country", "region", "email", "age", "errors"] ∧
    (∀ c : String, c ∈ output_columns ↔ c ∈ COLUMN_MAP.map Prod.snd ∨ c = "errors") := by
  refine ⟨?_, rfl, fun c => by simp [output_columns]⟩
  intro rows out h
  obtain ⟨hlen, hpt⟩ := extract_rows_ok (rows.map clean_record) out h
  refine ⟨by simpa using hlen, fun i => ?_⟩
  have hpi := hpt i
  rw [List.getElem?_map, Option.map_map] at hpi
  exact hpi

/-- The canonical record produced for `c2_rec`. -/
def c9_out : CanonicalRecord :=
  { full_name := PyVal.str "Ann", phone := some "+79261234567",
    country := PyVal.str "Russia", region := PyVal.str "Moscow",
    email := some "a@b.c", age := some 30, errors := "" }

/-- Witness for `extract_data_shape`: the count/order part at a concrete
one-row table whose extraction completes. -/
theorem extract_data_shape_witness :
    ([c9_out] : List CanonicalRecord).length = ([c2_rec] : List RawRecord).length ∧
    ∀ i : Nat, (([c2_rec] : List RawRecord)[i]?).map (fun r => validate_row (clean_record r)) =
      (([c9_out] : List CanonicalRecord)[i]?).map Except.ok :=
  extract_data_shape.1 [c2_rec] [c9_out] (by decide)

/-- C10 counterexample: the string the normalizer produces for the `nan`
missing-cell marker is `"nan"`, which has three characters, not four as
the claim states. -/
theorem nan_not_four_chars : ¬ ((remove_double_spaces PyVal.nan).length = 4) := by decide

/-- C10 amended: the normalizer maps `None` to the empty string and every
non-string, non-`None` value `v` to its string form `str(v)` with no
whitespace collapsing or trimming; in particular the `nan` missing-cell
marker becomes the three-character string `"nan"` rather than an absent
value. -/
theorem normalizer_non_string_passthrough :
    remove_double_spaces PyVal.pynone = "" ∧
    (∀ n : Int, remove_double_spaces (PyVal.int n) = pyStr (PyVal.int n)) ∧
    (∀ q : ℚ, remove_double_spaces (PyVal.float q) = pyStr (PyVal.float q)) ∧
    remove_double_spaces PyVal.nan = pyStr PyVal.nan ∧
    remove_double_spaces PyVal.nan = "nan" ∧
    (remove_double_spaces PyVal.nan).length = 3 :=
  ⟨rfl, fun _ => rfl, fun _ => rfl, rfl, rfl, by decide⟩

lemma ratFloor_eq_intFloor (q : ℚ) : Rat.floor q = ⌊q⌋ := by
  rw [Rat.floor_def', Rat.floor_def]

lemma pyRound_cast (q : ℚ) :
    ((2 * (q.num - Rat.floor q * (q.den : Int)) : Int) : ℚ) =
      2 * (q - (Rat.floor q : ℚ)) * (q.den : ℚ) := by
  have hd : ((q.den : ℚ)) ≠ 0 := by
    exact_mod_cast q.den_nz
  have hnum : (q.num : ℚ) = q * (q.den : ℚ) := by
    have h := Rat.num_div_den q
    rw [div_eq_iff hd] at h
    rw [h]
  push_cast
  rw [hnum]
  ring

lemma pyRound_near (q : ℚ) : |q - (pyRound q : ℚ)| ≤ 1 / 2 := by
  have hfl : Rat.floor q = ⌊q⌋ := ratFloor_eq_intFloor q
  have h1 : ((Rat.floor q : Int) : ℚ) ≤ q := by rw [hfl]; exact Int.floor_le q
  have h2 : q < ((Rat.floor q : Int) : ℚ) + 1 := by rw [hfl]; exact Int.lt_floor_add_one q
  have hd0 : (0 : ℚ) < (q.den : ℚ) := by exact_mod_cast q.den_pos
  have key1 : 2 * (q.num - Rat.floor q * (q.den : Int)) < (q.den : Int) ↔
      q - (Rat.floor q : ℚ) < 1 / 2 := by
    constructor
    · intro h
      have h' : ((2 * (q.num - Rat.floor q * (q.den : Int)) : Int) : ℚ) <
          ((q.den : Int) : ℚ) := by exact_mod_cast h
      rw [pyRound_cast] at h'
      push_cast at h'
      nlinarith
    · intro h
      have h' : ((2 * (q.num - Rat.floor q * (q.den : Int)) : Int) : ℚ) <
          ((q.den : Int) : ℚ) := by
        rw [pyRound_cast]
        push_cast
        nlinarith
      exact_mod_cast h'
  have key2 : (q.den : Int) < 2 * (q.num - Rat.floor q * (q.den : Int)) ↔
      1 / 2 < q - (Rat.floor q : ℚ) := by
    constructor
    · intro h
      have h' : ((q.den : Int) : ℚ) <
          ((2 * (q.num - Rat.floor q * (q.den : Int)) : Int) : ℚ) := by exact_mod_cast h
      rw [pyRound_cast] at h'
      push_cast at h'
      nlinarith
    · intro h
      have h' : ((q.den : Int) : ℚ) <
          ((2 * (q.num - Rat.floor q * (q.den : Int)) : Int) : ℚ) := by
        rw [pyRound_cast]
        push_cast
        nlinarith
      exact_mod_cast h'
  unfold pyRound
  dsimp only
  split_ifs with hb1 hb2 hb3
  · have := key1.mp hb1
    rw [abs_le]
    constructor <;> linarith
  · have := key2.mp hb2
    rw [abs_le]
    push_cast
    constructor <;> linarith
  · have hx1 : ¬(q - (Rat.floor q : ℚ) < 1 / 2) := fun hc => hb1 (key1.mpr hc)
    have hx2 : ¬(1 / 2 < q - (Rat.floor q : ℚ)) := fun hc => hb2 (key2.mpr hc)
    rw [abs_le]
    constructor <;> linarith [le_of_not_lt hx1, le_of_not_lt hx2]
  · have hx1 : ¬(q - (Rat.floor q : ℚ) < 1 / 2) := fun hc => hb1 (key1.mpr hc)
    have hx2 : ¬(1 / 2 < q - (Rat.floor q : ℚ)) := fun hc => hb2 (key2.mpr hc)
    rw [abs_le]
    push_cast
    constructor <;> linarith [le_of_not_lt hx1, le_of_not_lt hx2]

/-- C6 counterexample: "-inf" parses numerically (to the float negative
infinity), yet `validate_age` does not return any (value, diagnostic)
pair at all — `round` raises an uncaught `OverflowError` — contradicting
the claim that every numerically-parsing input is rounded and classified
by the range check. -/
theorem validate_age_inf_counterexample :
    pyFloat (PyVal.str "-inf") = some PyFloat.ninf ∧
    validate_age (PyVal.str "-inf") = Except.error () ∧
    ¬∃ p : Option Int × String, validate_age (PyVal.str "-inf") = Except.ok p := by
  refine ⟨by decide, by decide, ?_⟩
  rintro ⟨p, hp⟩
  rw [show validate_age (PyVal.str "-inf") = Except.error () from by decide] at hp
  cases hp

/-- C6 amended: `validate_age` returns (absent, "Age is empty") for
absent/blank input; input that parses numerically to a finite value is
rounded (Python banker's rounding, which is within 1/2 of the value,
hence a nearest integer) and accepted exactly on the inclusive range
[18, 120], rejected with an out-of-range diagnostic otherwise; parse
failure, and the float nan (whose `round` raises a caught `ValueError`),
yield the invalid-format diagnostic; input parsing to positive or
negative infinity makes the validator raise an uncaught `OverflowError`
instead of returning; in particular validate_age(17.5) = (18, ""),
validate_age(121) is out of range, validate_age("abc") is an invalid
format, and validate_age("1e5") is out of range with value 100000. -/
theorem validate_age_spec :
    (∀ v : PyVal, (isna v = true ∨ v = PyVal.str "") →
      validate_age v = Except.ok (none, "Age is empty")) ∧
    (∀ v : PyVal, ¬(isna v = true ∨ v = PyVal.str "") →
      (∀ q : ℚ, pyFloat v = some (PyFloat.finite q) →
        (18 ≤ pyRound q ∧ pyRound q ≤ 120 →
          validate_age v = Except.ok (some (pyRound q), "")) ∧
        (¬(18 ≤ pyRound q ∧ pyRound q ≤ 120) →
          validate_age v =
            Except.ok (none, "Age " ++ toString (pyRound q) ++ " out of range (18-120)"))) ∧
      ((pyFloat v = none ∨ pyFloat v = some PyFloat.nan) →
        validate_age v = Except.ok (none, "Invalid age format: " ++ pyStr v)) ∧
      ((pyFloat v = some PyFloat.pinf ∨ pyFloat v = some PyFloat.ninf) →
        validate_age v = Except.error ())) ∧
    (∀ q : ℚ, |q - (pyRound q : ℚ)| ≤ 1 / 2) ∧
    validate_age (PyVal.float (mkRat 35 2)) = Except.ok (some 18, "") ∧
    validate_age (PyVal.int 121) = Except.ok (none, "Age 121 out of range (18-120)") ∧
    validate_age (PyVal.str "abc") = Except.ok (none, "Invalid age format: abc") ∧
    validate_age (PyVal.str "1e5") =
      Except.ok (none, "Age 100000 out of range (18-120)") := by
  refine ⟨?_, ?_, pyRound_near, by decide, by decide, by decide, by decide⟩
  · intro v h
    rcases h with h | rfl
    · simp [validate_age, h]
    · decide
  · intro v h
    rw [not_or] at h
    have hc : (isna v || decide (v = PyVal.str "")) = false := by
      simp [Bool.not_eq_true] at h ⊢
      exact ⟨by simpa using h.1, h.2⟩
    refine ⟨?_, ?_, ?_⟩
    · intro q hq
      constructor
      · intro hrange
        simp [validate_age, hc, hq, hrange]
      · intro hrange
        simp [validate_age, hc, hq, hrange]
    · intro hq
      rcases hq with hq | hq <;> simp [validate_age, hc, hq]
    · intro hq
      rcases hq with hq | hq <;> simp [validate_age, hc, hq]

/-- Witness for `validate_age_spec`: applying it at the concrete input 30
with every hypothesis discharged. -/
theorem validate_age_spec_witness :
    validate_age (PyVal.int 30) = Except.ok (some (pyRound (mkRat 30 1)), "") :=
  ((validate_age_spec.2.1 (PyVal.int 30) (by decide)).1 (mkRat 30 1) (by decide)).1 (by decide)

lemma format_russian_phone_cases (digits : List Char) (raw : String) (hne : digits ≠ []) :
    format_russian_phone digits raw =
      (if digits.head? = some '8' ∧ digits.length = 11 then
        String.mk ('+' :: '7' :: digits.tail)
      else if digits.head? = some '7' ∧ digits.length = 11 then
        String.mk ('+' :: digits)
      else if digits.head? = some '9' ∧ digits.length = 10 then
        String.mk ('+' :: '7' :: digits)
      else String.mk ('+' :: digits)) := by
  unfold format_russian_phone
  split_ifs with h1 h2 h3 h4 h5 <;> try rfl
  · obtain ⟨hh, _⟩ := h2
    cases digits with
    | nil => cases hne rfl
    | cons c cs =>
        simp only [List.head?] at hh
        cases hh
        rfl
  · exact absurd (List.isEmpty_iff.mp (by simpa using h5)) hne

/-- C4: `validate_phone` applies its steps in the fixed order: a non-blank
input whose digit string has fewer than 10 digits is rejected as too
short before any country-table check; with at least 10 digits the
canonicalization heuristics are applied in priority order (11 digits
starting '8' → "+7" plus the remaining 10; 11 digits starting '7' → "+"
plus the digits; 10 digits starting '9' → "+7" prepended; otherwise "+"
prepended), and the result passes through the country-code check; and in
particular validate_phone("89261234567") = ("+79261234567", "") and
validate_phone("9261234567") = ("+79261234567", ""). -/
theorem validate_phone_spec :
    (∀ (v : PyVal) (raw : String) (digits : List Char),
      isna v = false → truthy v = true →
      raw = remove_double_spaces (PyVal.str (pyStr v)) →
      digits = raw.data.filter Char.isDigit →
      ((digits.length < 10 →
        validate_phone v = (none, "Phone too short: " ++ raw)) ∧
       (10 ≤ digits.length →
        format_russian_phone digits raw =
          (if digits.head? = some '8' ∧ digits.length = 11 then
            String.mk ('+' :: '7' :: digits.tail)
          else if digits.head? = some '7' ∧ digits.length = 11 then
            String.mk ('+' :: digits)
          else if digits.head? = some '9' ∧ digits.length = 10 then
            String.mk ('+' :: '7' :: digits)
          else String.mk ('+' :: digits)) ∧
        validate_phone v =
          (if validate_country_code (format_russian_phone digits raw) = "" then
            (some (format_russian_phone digits raw), "")
          else
            (none, "Invalid phone '" ++ raw ++ "': " ++
              validate_country_code (format_russian_phone digits raw)))))) ∧
    validate_phone (PyVal.str "89261234567") = (some "+79261234567", "") ∧
    validate_phone (PyVal.str "9261234567") = (some "+79261234567", "") := by
  refine ⟨?_, by decide, by decide⟩
  intro v raw digits h1 h2 hr hd
  subst hr
  subst hd
  constructor
  · intro hshort
    simp [validate_phone, h1, h2, hshort]
  · intro hlong
    have hne : (remove_double_spaces (PyVal.str (pyStr v))).data.filter Char.isDigit ≠ [] := by
      intro hx
      rw [hx] at hlong
      simp at hlong
    refine ⟨format_russian_phone_cases _ _ hne, ?_⟩
    have hnot : ¬((remove_double_spaces (PyVal.str (pyStr v))).data.filter
        Char.isDigit).length < 10 := not_lt.mpr hlong
    by_cases hv : validate_country_code (format_russian_phone
        ((remove_double_spaces (PyVal.str (pyStr v))).data.filter Char.isDigit)
        (remove_double_spaces (PyVal.str (pyStr v)))) = ""
    · simp [validate_phone, h1, h2, hnot, hv]
    · simp [validate_phone, h1, h2, hnot, hv]

/-- Witness for `validate_phone_spec`: the too-short branch at the
concrete input "123". -/
theorem validate_phone_spec_witness :
    validate_phone (PyVal.str "123") =
      (none, "Phone too short: " ++ remove_double_spaces (PyVal.str (pyStr (PyVal.str "123")))) :=
  (validate_phone_spec.1 (PyVal.str "123") _ _ (by decide) (by decide) rfl rfl).1 (by decide)

lemma startsWith_plus_ne_empty (s : String) (h : strStartsWith s "+" = true) :
    s.isEmpty = false := by
  by_contra hx
  have hemp : s = "" := (String.isEmpty_iff s).mp (by revert hx; cases s.isEmpty <;> simp)
  subst hemp
  exact absurd h (by decide)

lemma vcc_pos (s : String) (h : strStartsWith s "+" = true) :
    validate_country_code s = check_codes s COUNTRY_CODES := by
  unfold validate_country_code
  simp [startsWith_plus_ne_empty s h, h]

lemma check_codes_no_match (s : String) (rules : List (String × List String × Nat))
    (h : ∀ e ∈ rules, ∀ code ∈ e.2.1, strStartsWith s ("+" ++ code) = false) :
    check_codes s rules = "Unknown country code" := by
  induction rules with
  | nil => rfl
  | cons e rest ih =>
      obtain ⟨country, codes, len⟩ := e
      have hf : code_find s codes = none := by
        unfold code_find
        rw [List.find?_eq_none]
        intro code hc
        simp [h (country, codes, len) (List.mem_cons_self _ _) code hc]
      simp only [check_codes, hf]
      exact ih fun e he code hc => h e (List.mem_cons_of_mem _ he) code hc

lemma check_codes_first_match (s : String) (rules : List (String × List String × Nat))
    (hex : ∃ e ∈ rules, ∃ code ∈ e.2.1, strStartsWith s ("+" ++ code) = true) :
    ∃ e ∈ rules, ∃ code ∈ e.2.1, strStartsWith s ("+" ++ code) = true ∧
      (check_codes s rules = "" ↔
        (s.length : Int) = (code.length : Int) + 1 + ((e.2.2 : Int) - (code.length : Int))) ∧
      (check_codes s rules ≠ "" →
        check_codes s rules = "Invalid length for " ++ e.1) := by
  induction rules with
  | nil =>
      obtain ⟨e, he, _⟩ := hex
      cases he
  | cons hd rest ih =>
      obtain ⟨country, codes, len⟩ := hd
      cases hfind : code_find s codes with
      | some code =>
          have hfind' : List.find? (fun code => strStartsWith s ("+" ++ code)) codes =
              some code := hfind
          have hp : strStartsWith s ("+" ++ code) = true := by
            simpa using List.find?_some hfind'
          refine ⟨(country, codes, len), List.mem_cons_self _ _, code,
            List.mem_of_find?_eq_some hfind', hp, ?_, ?_⟩
          · simp only [check_codes, hfind]
            split_ifs with hlen
            · simp [hlen]
            · constructor
              · intro hx
                exact absurd hx (append_ne_empty_left _ _ (by decide))
              · intro hx
                exact absurd hx hlen
          · simp only [check_codes, hfind]
            split_ifs with hlen
            · intro hx
              exact absurd rfl hx
            · intro _
              rfl
      | none =>
          have hnone : ∀ code ∈ codes, strStartsWith s ("+" ++ code) = false := by
            intro code hc
            have := List.find?_eq_none.mp hfind code hc
            revert this
            cases strStartsWith s ("+" ++ code) <;> simp
          have hex' : ∃ e ∈ rest, ∃ code ∈ e.2.1, strStartsWith s ("+" ++ code) = true := by
            obtain ⟨e, he, code, hc, hp⟩ := hex
            rcases List.mem_cons.mp he with rfl | hrest
            · exact absurd hp (by simp [hnone code hc])
            · exact ⟨e, hrest, code, hc, hp⟩
          obtain ⟨e, he, code, hc, hp, hiff, hinv⟩ := ih hex'
          exact ⟨e, List.mem_cons_of_mem _ he, code, hc, hp,
            by simpa only [check_codes, hfind] using hiff,
            by simpa only [check_codes, hfind] using hinv⟩

/-- C5: for every canonical phone candidate string, a string not starting
with '+' gets "Missing country code"; when some rule's dialing prefix
matches, the string is accepted exactly when its total length (with the
'+') is 1 + the rule's expected digit length, the mismatch diagnostic
being "Invalid length for <country>"; when no prefix matches the
diagnostic is "Unknown country code"; and any nonempty diagnostic makes
`validate_phone` return (absent, "Invalid phone '<raw>': <diagnostic>"). -/
theorem validate_country_code_spec :
    (∀ s : String, strStartsWith s "+" = false →
      validate_country_code s = "Missing country code") ∧
    (∀ s : String, strStartsWith s "+" = true →
      (∀ e ∈ COUNTRY_CODES, ∀ code ∈ e.2.1, strStartsWith s ("+" ++ code) = false) →
      validate_country_code s = "Unknown country code") ∧
    (∀ s : String, strStartsWith s "+" = true →
      (∃ e ∈ COUNTRY_CODES, ∃ code ∈ e.2.1, strStartsWith s ("+" ++ code) = true) →
      ∃ e ∈ COUNTRY_CODES, ∃ code ∈ e.2.1, strStartsWith s ("+" ++ code) = true ∧
        (validate_country_code s = "" ↔ s.length = 1 + e.2.2) ∧
        (validate_country_code s ≠ "" →
          validate_country_code s = "Invalid length for " ++ e.1)) ∧
    (∀ (v : PyVal) (raw : String) (digits : List Char),
      isna v = false → truthy v = true →
      raw = remove_double_spaces (PyVal.str (pyStr v)) →
      digits = raw.data.filter Char.isDigit → 10 ≤ digits.length →
      validate_country_code (format_russian_phone digits raw) ≠ "" →
      validate_phone v = (none, "Invalid phone '" ++ raw ++ "': " ++
        validate_country_code (format_russian_phone digits raw))) := by
  refine ⟨?_, ?_, ?_, ?_⟩
  · intro s h
    unfold validate_country_code
    simp [h]
  · intro s hstart h
    rw [vcc_pos s hstart]
    exact check_codes_no_match s COUNTRY_CODES h
  · intro s hstart hex
    obtain ⟨e, he, code, hc, hp, hiff, hinv⟩ := check_codes_first_match s COUNTRY_CODES hex
    refine ⟨e, he, code, hc, hp, ?_, ?_⟩
    · rw [vcc_pos s hstart, hiff]
      constructor <;> intro h <;> omega
    · intro hne
      rw [vcc_pos s hstart] at hne ⊢
      exact hinv hne
  · intro v raw digits h1 h2 hr hd hlen herr
    subst hr
    subst hd
    have hnot : ¬((remove_double_spaces (PyVal.str (pyStr v))).data.filter
        Char.isDigit).length < 10 := not_lt.mpr hlen
    simp [validate_phone, h1, h2, hnot, herr]

/-- Witness for `validate_country_code_spec`: the first-match part applied
at the concrete canonical string "+79261234567". -/
theorem validate_country_code_spec_witness :
    ∃ e ∈ COUNTRY_CODES, ∃ code ∈ e.2.1,
      strStartsWith "+79261234567" ("+" ++ code) = true ∧
      (validate_country_code "+79261234567" = "" ↔ "+79261234567".length = 1 + e.2.2) ∧
      (validate_country_code "+79261234567" ≠ "" →
        validate_country_code "+79261234567" = "Invalid length for " ++ e.1) :=
  validate_country_code_spec.2.2.1 "+79261234567" (by decide)
    ⟨("RU", ["7"], 11), by decide, "7", by decide, by decide⟩

/-- The email pattern `^[\w\.-]+@[\w\.-]+\.\w+$` in the spec's words: a
nonempty all-class local part, '@', a nonempty all-class middle part, '.',
and a nonempty all-word tail, covering the whole string. -/
def EmailFormat (l : List Char) : Prop :=
  ∃ A B C : List Char, l = A ++ '@' :: (B ++ '.' :: C) ∧ A ≠ [] ∧
    (∀ c ∈ A, isEmailChar c = true) ∧ B ≠ [] ∧ (∀ c ∈ B, isEmailChar c = true) ∧
    C ≠ [] ∧ (∀ c ∈ C, isWordChar c = true)

lemma ne_nil_of_isEmpty_false {l : List Char} (h : l.isEmpty = false) : l ≠ [] := by
  intro he
  subst he
  simp at h

lemma isEmpty_false_of_ne_nil {l : List Char} (h : l ≠ []) : l.isEmpty = false := by
  cases l with
  | nil => exact absurd rfl h
  | cons a t => rfl

lemma eq_take_cons_drop {t : List Char} {j : Nat} {ch : Char} (h : t[j]? = some ch) :
    t = t.take j ++ ch :: t.drop (j + 1) := by
  obtain ⟨hj, he⟩ := List.getElem?_eq_some.mp h
  conv_lhs => rw [← List.take_append_drop j t]
  rw [List.drop_eq_getElem_cons hj, he]

lemma append_cons_get (B C : List Char) (ch : Char) : (B ++ ch :: C)[B.length]? = some ch := by
  rw [List.getElem?_append_right (Nat.le_refl _)]
  simp

lemma append_cons_take (B C : List Char) (ch : Char) : (B ++ ch :: C).take B.length = B :=
  List.take_left B (ch :: C)

lemma append_cons_drop (B C : List Char) (ch : Char) :
    (B ++ ch :: C).drop (B.length + 1) = C := by
  have h : B ++ ch :: C = (B ++ [ch]) ++ C := by simp
  have hl : (B ++ [ch]).length = B.length + 1 := by simp
  rw [h, ← hl, List.drop_left]

lemma emailTail_iff (t : List Char) :
    emailTail t = true ↔
      ∃ B C : List Char, t = B ++ '.' :: C ∧ B ≠ [] ∧ (∀ c ∈ B, isEmailChar c = true) ∧
        C ≠ [] ∧ (∀ c ∈ C, isWordChar c = true) := by
  unfold emailTail
  rw [List.any_eq_true]
  constructor
  · rintro ⟨j, hjr, hcond⟩
    simp only [Bool.and_eq_true, beq_iff_eq, List.all_eq_true, Bool.not_eq_true'] at hcond
    obtain ⟨⟨⟨⟨hdot, hBne⟩, hBall⟩, hCne⟩, hCall⟩ := hcond
    exact ⟨t.take j, t.drop (j + 1), eq_take_cons_drop hdot,
      ne_nil_of_isEmpty_false hBne, hBall, ne_nil_of_isEmpty_false hCne, hCall⟩
  · rintro ⟨B, C, rfl, hBne, hBall, hCne, hCall⟩
    refine ⟨B.length, List.mem_range.mpr (by simp), ?_⟩
    simp only [Bool.and_eq_true, beq_iff_eq, List.all_eq_true, Bool.not_eq_true']
    rw [append_cons_get, append_cons_take, append_cons_drop]
    exact ⟨⟨⟨⟨rfl, isEmpty_false_of_ne_nil hBne⟩, hBall⟩,
      isEmpty_false_of_ne_nil hCne⟩, hCall⟩

lemma emailMatch_iff (l : List Char) : emailMatch l = true ↔ EmailFormat l := by
  unfold emailMatch EmailFormat
  rw [List.any_eq_true]
  constructor
  · rintro ⟨i, hir, hcond⟩
    simp only [Bool.and_eq_true, beq_iff_eq, List.all_eq_true, Bool.not_eq_true'] at hcond
    obtain ⟨⟨⟨hat, hAne⟩, hAall⟩, htail⟩ := hcond
    obtain ⟨B, C, hBC, hBne, hBall, hCne, hCall⟩ := (emailTail_iff _).mp htail
    refine ⟨l.take i, B, C, ?_, ne_nil_of_isEmpty_false hAne, hAall,
      hBne, hBall, hCne, hCall⟩
    rw [← hBC]
    exact eq_take_cons_drop hat
  · rintro ⟨A, B, C, rfl, hAne, hAall, hBne, hBall, hCne, hCall⟩
    refine ⟨A.length, List.mem_range.mpr (by simp), ?_⟩
    simp only [Bool.and_eq_true, beq_iff_eq, List.all_eq_true, Bool.not_eq_true']
    rw [append_cons_get, append_cons_take, append_cons_drop]
    exact ⟨⟨⟨rfl, isEmpty_false_of_ne_nil hAne⟩, hAall⟩,
      (emailTail_iff _).mpr ⟨B, C, rfl, hBne, hBall, hCne, hCall⟩⟩

/-- C7: `validate_email` returns (absent, "Email is empty") for
absent/blank (falsy) input; otherwise it normalizes the value and accepts
it exactly when the normalized string matches, anchored start-to-end,
one-or-more characters of the class (word chars, dot, hyphen), then '@',
then one-or-more of the same class, then '.', then one-or-more word
characters, rejecting with "Invalid email format: <value>" otherwise;
in particular validate_email(None) = (absent, "Email is empty"),
validate_email("a..b@@x") is an invalid format, and
validate_email(" John.Doe@Test.com ") = ("John.Doe@Test.com", ""). -/
theorem validate_email_spec :
    (∀ v : PyVal, (isna v = true ∨ truthy v = false) →
      validate_email v = (none, "Email is empty")) ∧
    (∀ v : PyVal, isna v = false → truthy v = true →
      ∀ clean : String, clean = remove_double_spaces (PyVal.str (pyStr v)) →
        (EmailFormat clean.data → validate_email v = (some clean, "")) ∧
        (¬EmailFormat clean.data →
          validate_email v = (none, "Invalid email format: " ++ clean))) ∧
    validate_email PyVal.pynone = (none, "Email is empty") ∧
    validate_email (PyVal.str "a..b@@x") = (none, "Invalid email format: a..b@@x") ∧
    validate_email (PyVal.str " John.Doe@Test.com ") = (some "John.Doe@Test.com", "") := by
  refine ⟨?_, ?_, by decide, by decide, by decide⟩
  · intro v h
    rcases h with h | h <;> simp [validate_email, h]
  · intro v h1 h2 clean hc
    subst hc
    constructor
    · intro hfmt
      have hm : emailMatch (remove_double_spaces (PyVal.str (pyStr v))).data = true :=
        (emailMatch_iff _).mpr hfmt
      simp [validate_email, h1, h2, hm]
    · intro hfmt
      have hm : emailMatch (remove_double_spaces (PyVal.str (pyStr v))).data = false := by
        rw [← Bool.not_eq_true, emailMatch_iff]
        exact hfmt
      simp [validate_email, h1, h2, hm]

/-- Witness for `validate_email_spec`: the accepting branch at the
concrete input "a@b.c", with the format hypothesis discharged by an
explicit decomposition. -/
theorem validate_email_spec_witness :
    validate_email (PyVal.str "a@b.c") =
      (some (remove_double_spaces (PyVal.str (pyStr (PyVal.str "a@b.c")))), "") :=
  (validate_email_spec.2.1 (PyVal.str "a@b.c") (by decide) (by decide) _ rfl).1
    ⟨['a'], ['b'], ['c'], by decide, by decide, by decide, by decide, by decide,
     by decide, by decide⟩

lemma join_contains (sep d : String) (ds : List String) (h : d ∈ ds) :
    ∃ pre post : List Char, (joinSep sep ds).data = pre ++ d.data ++ post := by
  induction ds with
  | nil => cases h
  | cons x xs ih =>
      rcases List.mem_cons.mp h with rfl | hx
      · cases xs with
        | nil => exact ⟨[], [], by simp [joinSep]⟩
        | cons y ys =>
            refine ⟨[], (sep ++ joinSep sep (y :: ys)).data, ?_⟩
            simp [joinSep, String.data_append, List.append_assoc]
      · cases xs with
        | nil => cases hx
        | cons y ys =>
            obtain ⟨pre, post, hp⟩ := ih hx
            refine ⟨(x ++ sep).data ++ pre, post, ?_⟩
            simp [joinSep, String.data_append, hp, List.append_assoc]

/-- A raw record whose `full_name` cell is blank in the spreadsheet (the
`nan` marker) while every other field is valid. -/
def c3_raw : RawRecord :=
  { full_name := PyVal.nan, phone := PyVal.str "89261234567",
    country := PyVal.str "Russia", region := PyVal.str "Moscow",
    email := PyVal.str "a@b.com", age := PyVal.int 30 }

/-- The canonical record the pipeline produces for `c3_raw`: the absent
`full_name` has become the string "nan" and no error is recorded. -/
def c3_out : CanonicalRecord :=
  { full_name := PyVal.str "nan", phone := some "+79261234567",
    country := PyVal.str "Russia", region := PyVal.str "Moscow",
    email := some "a@b.com", age := some 30, errors := "" }

/-- C3 counterexample: a record whose `full_name` is absent (a blank
spreadsheet cell, the `nan` marker) is cleaned to the string "nan" before
validation, so the processed record's errors string is empty and in
particular does not contain "full_name is empty". -/
theorem absent_required_field_not_flagged :
    isna c3_raw.full_name = true ∧
    extract_data [c3_raw] = Except.ok [c3_out] ∧
    c3_out.errors = "" ∧
    ¬∃ pre post : List Char,
        c3_out.errors.data = pre ++ "full_name is empty".data ++ post := by
  refine ⟨rfl, by decide, rfl, ?_⟩
  rintro ⟨pre, post, h⟩
  have h' : pre ++ "full_name is empty".data ++ post = [] := h.symm
  rcases List.append_eq_nil.mp h' with ⟨h1, -⟩
  rcases List.append_eq_nil.mp h1 with ⟨-, h2⟩
  cases h2

/-- C3 amended: in the processed pipeline, for every record on which the
row validator returns, a required field (`full_name`, `country`,
`region`) that is blank after normalization (its normalized string strips
to empty) makes the errors string contain "<field> is empty"; an absent
cell, however, is stringified to "nan" by the cleaning step and is
therefore not blank; in all cases the record keeps the normalized value
of the field. -/
theorem required_blank_flagged :
    ∀ (r : RawRecord) (agep : Option Int × String),
      validate_age r.age = Except.ok agep →
      ∃ c : CanonicalRecord, validate_row (clean_record r) = Except.ok c ∧
        (stripWS (remove_double_spaces r.full_name).data = [] →
          ∃ pre post : List Char,
            c.errors.data = pre ++ "full_name is empty".data ++ post) ∧
        (stripWS (remove_double_spaces r.country).data = [] →
          ∃ pre post : List Char,
            c.errors.data = pre ++ "country is empty".data ++ post) ∧
        (stripWS (remove_double_spaces r.region).data = [] →
          ∃ pre post : List Char,
            c.errors.data = pre ++ "region is empty".data ++ post) ∧
        c.full_name = PyVal.str (remove_double_spaces r.full_name) ∧
        c.country = PyVal.str (remove_double_spaces r.country) ∧
        c.region = PyVal.str (remove_double_spaces r.region) := by
  intro r agep h
  have hage : validate_age (clean_record r).age = Except.ok agep := h
  refine ⟨_, validate_row_ok (clean_record r) agep hage, ?_, ?_, ?_, rfl, rfl, rfl⟩ <;>
    intro hblank
  · have hreq : req_empty (clean_record r).full_name = true := by
      simp [clean_record, req_empty, pyStr, hblank]
    have hmem : "full_name is empty" ∈ row_errors (clean_record r) agep := by
      simp [row_errors, hreq]
    exact join_contains _ _ _ hmem
  · have hreq : req_empty (clean_record r).country = true := by
      simp [clean_record, req_empty, pyStr, hblank]
    have hmem : "country is empty" ∈ row_errors (clean_record r) agep := by
      simp [row_errors, hreq]
    exact join_contains _ _ _ hmem
  · have hreq : req_empty (clean_record r).region = true := by
      simp [clean_record, req_empty, pyStr, hblank]
    have hmem : "region is empty" ∈ row_errors (clean_record r) agep := by
      simp [row_errors, hreq]
    exact join_contains _ _ _ hmem

/-- A raw record whose `full_name` is whitespace only (blank after
normalization). -/
def c3_blank : RawRecord :=
  { full_name := PyVal.str "   ", phone := PyVal.str "89261234567",
    country := PyVal.str "Russia", region := PyVal.str "Moscow",
    email := PyVal.str "a@b.com", age := PyVal.int 30 }

/-- Witness for `required_blank_flagged`: a whitespace-only `full_name`
satisfies the blankness hypothesis and the diagnostic is present in the
returned record. -/
theorem required_blank_flagged_witness :
    stripWS (remove_double_spaces c3_blank.full_name).data = [] ∧
    ∃ c : CanonicalRecord, validate_row (clean_record c3_blank) = Except.ok c ∧
      ∃ pre post : List Char,
        c.errors.data = pre ++ "full_name is empty".data ++ post := by
  refine ⟨by decide, ?_⟩
  obtain ⟨c, hc, h1, -, -, -, -, -⟩ :=
    required_blank_flagged c3_blank ((some 30 : Option Int), "") (by decide)
  exact ⟨c, hc, h1 (by decide)⟩

/-- Two adjacent characters are acceptable when they are not both
whitespace (the invariant of a collapsed string). -/
def spaceAdj (a b : Char) : Prop := ¬(isSpace a = true ∧ isSpace b = true)

/-- A collapsed string: every whitespace character is a plain space and no
two adjacent characters are both whitespace. -/
def goodWS (l : List Char) : Prop :=
  (∀ c ∈ l, isSpace c = true → c = ' ') ∧ List.Chain' spaceAdj l

lemma mem_of_head? {l : List Char} {d : Char} (h : l.head? = some d) : d ∈ l := by
  cases l with
  | nil => cases h
  | cons c cs =>
      simp only [List.head?_cons, Option.some.injEq] at h
      subst h
      exact List.mem_cons_self _ _

lemma mem_of_getLast? {l : List Char} {d : Char} (h : l.getLast? = some d) : d ∈ l := by
  have h' : l.reverse.head? = some d := by rw [List.head?_reverse]; exact h
  exact List.mem_reverse.mp (mem_of_head? h')

lemma subWSAux_true_head (l : List Char) :
    ∀ d, (subWSAux true l).head? = some d → isSpace d = false := by
  induction l with
  | nil => intro d hd; simp [subWSAux] at hd
  | cons c cs ih =>
      intro d hd
      by_cases hs : isSpace c = true
      · simp only [subWSAux, hs, if_true] at hd
        exact ih d hd
      · simp only [subWSAux, hs, if_false, Bool.false_eq_true, List.head?_cons,
          Option.some.injEq] at hd
        subst hd
        simpa using hs

lemma subWSAux_good (l : List Char) : ∀ b, goodWS (subWSAux b l) := by
  induction l with
  | nil => intro b; exact ⟨by simp [subWSAux], by simp [subWSAux]⟩
  | cons c cs ih =>
      intro b
      by_cases hs : isSpace c = true
      · cases b with
        | true => simpa [subWSAux, hs] using ih true
        | false =>
            have hstep : subWSAux false (c :: cs) = ' ' :: subWSAux true cs := by
              simp [subWSAux, hs]
            rw [hstep]
            constructor
            · intro x hx
              rcases List.mem_cons.mp hx with rfl | hx
              · intro _; rfl
              · exact (ih true).1 x hx
            · rw [List.chain'_cons']
              refine ⟨fun y hy => ?_, (ih true).2⟩
              intro hcontra
              have hns := subWSAux_true_head cs y (Option.mem_def.mp hy)
              rw [hns] at hcontra
              exact absurd hcontra.2 (by simp)
      · constructor
        · intro x hx
          simp only [subWSAux, hs, if_false, Bool.false_eq_true, List.mem_cons] at hx
          rcases hx with rfl | hx
          · intro hxx; exact absurd hxx hs
          · exact (ih false).1 x hx
        · simp only [subWSAux, hs, if_false, Bool.false_eq_true]
          rw [List.chain'_cons']
          refine ⟨fun y hy => ?_, (ih false).2⟩
          intro hcontra
          exact absurd hcontra.1 hs

lemma subWSAux_id (l : List Char) : ∀ b, (∀ c ∈ l, isSpace c = true → c = ' ') →
    List.Chain' spaceAdj l → (b = true → ∀ d, l.head? = some d → isSpace d = false) →
    subWSAux b l = l := by
  induction l with
  | nil => intro b _ _ _; rfl
  | cons c cs ih =>
      intro b hmem hch hhd
      by_cases hs : isSpace c = true
      · have hb : b = false := by
          cases b with
          | false => rfl
          | true => exact absurd hs (by simp [hhd rfl c rfl])
        subst hb
        have hc' : c = ' ' := hmem c (List.mem_cons_self _ _) hs
        have hcs : subWSAux true cs = cs := by
          apply ih true
          · exact fun x hx => hmem x (List.mem_cons_of_mem _ hx)
          · exact hch.tail
          · intro _ d hd
            have hadj := (List.chain'_cons'.mp hch).1 d (Option.mem_def.mpr hd)
            cases hdd : isSpace d with
            | false => rfl
            | true => exact absurd ⟨hs, hdd⟩ hadj
        subst hc'
        have hstep : subWSAux false (' ' :: cs) = ' ' :: subWSAux true cs := by
          simp [subWSAux, hs]
        rw [hstep, hcs]
      · have hstep : subWSAux b (c :: cs) = c :: subWSAux false cs := by
          simp [subWSAux, hs]
        rw [hstep, ih false (fun x hx => hmem x (List.mem_cons_of_mem _ hx)) hch.tail
          (fun h => absurd h Bool.false_ne_true)]

lemma head?_dropWhile (p : Char → Bool) (l : List Char) :
    ∀ d, (l.dropWhile p).head? = some d → p d = false := by
  induction l with
  | nil => intro d hd; simp [List.dropWhile] at hd
  | cons c cs ih =>
      intro d hd
      rw [List.dropWhile_cons] at hd
      by_cases hp : p c = true
      · rw [if_pos hp] at hd
        exact ih d hd
      · rw [if_neg hp] at hd
        simp only [List.head?_cons, Option.some.injEq] at hd
        subst hd
        exact (Bool.not_eq_true _).mp hp

lemma dropWhile_eq_self_of_head (p : Char → Bool) (l : List Char)
    (h : ∀ d, l.head? = some d → p d = false) : l.dropWhile p = l := by
  cases l with
  | nil => rfl
  | cons c cs =>
      rw [List.dropWhile_cons, if_neg]
      simp [h c rfl]

lemma getLast?_dropWhile (p : Char → Bool) (l : List Char) (h : l.dropWhile p ≠ []) :
    (l.dropWhile p).getLast? = l.getLast? := by
  induction l with
  | nil => exact absurd rfl h
  | cons c cs ih =>
      rw [List.dropWhile_cons] at h ⊢
      by_cases hp : p c = true
      · rw [if_pos hp] at h ⊢
        have hcs : cs ≠ [] := by
          intro he
          subst he
          exact h rfl
        cases cs with
        | nil => exact absurd rfl hcs
        | cons y ys =>
            rw [List.getLast?_cons_cons]
            exact ih h
      · rw [if_neg hp]

lemma chain'_of_append_right {R : Char → Char → Prop} {l₁ l₂ : List Char}
    (h : List.Chain' R (l₁ ++ l₂)) : List.Chain' R l₂ := (List.chain'_append.mp h).2.1

lemma chain'_dropWhile {R : Char → Char → Prop} (p : Char → Bool) {l : List Char}
    (h : List.Chain' R l) : List.Chain' R (l.dropWhile p) := by
  have hx : l.takeWhile p ++ l.dropWhile p = l := @List.takeWhile_append_dropWhile _ p l
  have h2 : List.Chain' R (l.takeWhile p ++ l.dropWhile p) := by rw [hx]; exact h
  exact chain'_of_append_right h2

lemma chain'_reverse_spaceAdj {l : List Char} (h : List.Chain' spaceAdj l) :
    List.Chain' spaceAdj l.reverse := by
  rw [List.chain'_reverse]
  exact h.imp fun a b hab => fun hx => hab ⟨hx.2, hx.1⟩

lemma mem_of_mem_stripWS {x : Char} {l : List Char} (h : x ∈ stripWS l) : x ∈ l := by
  unfold stripWS at h
  rw [List.mem_reverse] at h
  have h1 := (List.dropWhile_sublist _).subset h
  rw [List.mem_reverse] at h1
  exact (List.dropWhile_sublist _).subset h1

lemma stripWS_good {l : List Char} (h : goodWS l) : goodWS (stripWS l) := by
  refine ⟨fun c hc => h.1 c (mem_of_mem_stripWS hc), ?_⟩
  unfold stripWS
  exact chain'_reverse_spaceAdj (chain'_dropWhile _ (chain'_reverse_spaceAdj
    (chain'_dropWhile _ h.2)))

lemma stripWS_head (l : List Char) :
    ∀ d, (stripWS l).head? = some d → isSpace d = false := by
  intro d hd
  unfold stripWS at hd
  rw [List.head?_reverse] at hd
  have hw : ((l.dropWhile isSpace).reverse.dropWhile isSpace) ≠ [] := by
    intro he
    rw [he] at hd
    cases hd
  rw [getLast?_dropWhile _ _ hw, List.getLast?_reverse] at hd
  exact head?_dropWhile _ _ d hd

lemma stripWS_getLast (l : List Char) :
    ∀ d, (stripWS l).getLast? = some d → isSpace d = false := by
  intro d hd
  unfold stripWS at hd
  rw [List.getLast?_reverse] at hd
  exact head?_dropWhile _ _ d hd

lemma stripWS_eq_self (l : List Char)
    (hh : ∀ d, l.head? = some d → isSpace d = false)
    (hl : ∀ d, l.getLast? = some d → isSpace d = false) : stripWS l = l := by
  unfold stripWS
  rw [dropWhile_eq_self_of_head _ _ hh]
  rw [dropWhile_eq_self_of_head _ _ (by
    intro d hd
    rw [List.head?_reverse] at hd
    exact hl d hd)]
  exact List.reverse_reverse l

lemma collapse_good (l : List Char) : goodWS (collapse l) :=
  stripWS_good (subWSAux_good l false)

lemma collapse_idem (l : List Char) : collapse (collapse l) = collapse l := by
  show stripWS (subWS (collapse l)) = collapse l
  rw [show subWS (collapse l) = collapse l from subWSAux_id (collapse l) false
    (collapse_good l).1 (collapse_good l).2 (fun h => absurd h Bool.false_ne_true)]
  exact stripWS_eq_self (collapse l) (stripWS_head (subWS l)) (stripWS_getLast (subWS l))

lemma chain'_of_noSpace (l : List Char) (h : ∀ c ∈ l, isSpace c = false) :
    List.Chain' spaceAdj l := by
  induction l with
  | nil => simp
  | cons c cs ih =>
      rw [List.chain'_cons']
      refine ⟨fun y hy hx => ?_, ih fun x hx => h x (List.mem_cons_of_mem _ hx)⟩
      exact absurd hx.1 (by simp [h c (List.mem_cons_self _ _)])

lemma collapse_eq_self_of_noSpace (l : List Char) (h : ∀ c ∈ l, isSpace c = false) :
    collapse l = l := by
  show stripWS (subWS l) = l
  rw [show subWS l = l from subWSAux_id l false (fun c hc hx => absurd hx (by simp [h c hc]))
    (chain'_of_noSpace l h) (fun hx => absurd hx Bool.false_ne_true)]
  exact stripWS_eq_self l (fun d hd => h d (mem_of_head? hd))
    (fun d hd => h d (mem_of_getLast? hd))

lemma digit_not_space (ch : Char) (h : ch.isDigit = true) : isSpace ch = false := by
  by_contra hx
  have hs : ch.isWhitespace = true := by
    revert hx
    unfold isSpace
    cases ch.isWhitespace <;> simp
  have hcases : ((ch = ' ' ∨ ch = '\t') ∨ ch = '\r') ∨ ch = '\n' := by
    simpa [Char.isWhitespace] using hs
  rcases hcases with ((rfl | rfl) | rfl) | rfl <;> exact absurd h (by decide)

lemma isEmpty_false_of_data (s : String) (h : s.data ≠ []) : s.isEmpty = false := by
  by_contra hx
  have hemp : s = "" := (String.isEmpty_iff s).mp (by revert hx; cases s.isEmpty <;> simp)
  subst hemp
  exact h rfl

lemma startsWith_plus_mk (xs : List Char) : strStartsWith (String.mk ('+' :: xs)) "+" = true := by
  show (("+" : String).data.isPrefixOf ('+' :: xs)) = true
  have h : ("+" : String).data = ['+'] := rfl
  rw [h]
  simp [List.isPrefixOf]

lemma strStartsWith_mk_of_ne (c : Char) (t : List Char) (code : String) (c0 : Char)
    (cs : List Char) (hcode : code.data = c0 :: cs) (hne : (c0 == c) = false) :
    strStartsWith (String.mk ('+' :: c :: t)) ("+" ++ code) = false := by
  unfold strStartsWith
  rw [String.data_append]
  have h : ("+" : String).data = ['+'] := rfl
  rw [h, hcode]
  show (('+' :: c0 :: cs).isPrefixOf ('+' :: c :: t)) = false
  simp [List.isPrefixOf, hne]

lemma check_codes_ne_empty (s : String) (rules : List (String × List String × Nat))
    (h : ∀ e ∈ rules, ∀ code ∈ e.2.1, strStartsWith s ("+" ++ code) = true →
      ¬((s.length : Int) = (code.length : Int) + 1 + ((e.2.2 : Int) - (code.length : Int)))) :
    check_codes s rules ≠ "" := by
  induction rules with
  | nil =>
      show ("Unknown country code" : String) ≠ ""
      decide
  | cons hd rest ih =>
      obtain ⟨country, codes, len⟩ := hd
      cases hfind : code_find s codes with
      | some code =>
          have hfind' : List.find? (fun code => strStartsWith s ("+" ++ code)) codes =
              some code := hfind
          have hp : strStartsWith s ("+" ++ code) = true := by
            simpa using List.find?_some hfind'
          have hne := h (country, codes, len) (List.mem_cons_self _ _) code
            (List.mem_of_find?_eq_some hfind') hp
          simp only [check_codes, hfind]
          rw [if_neg hne]
          exact append_ne_empty_left _ _ (by decide)
      | none =>
          simp only [check_codes, hfind]
          exact ih fun e he => h e (List.mem_cons_of_mem _ he)

lemma eight_unknown (t : List Char) :
    check_codes (String.mk ('+' :: '8' :: t)) COUNTRY_CODES = "Unknown country code" := by
  apply check_codes_no_match
  intro e he code hc
  fin_cases he <;> simp only [List.mem_singleton] at hc <;> subst hc <;>
    exact strStartsWith_mk_of_ne _ _ _ _ _ rfl (by decide)

lemma nine_invalid (t : List Char) (ht : t.length = 9) :
    check_codes (String.mk ('+' :: '9' :: t)) COUNTRY_CODES ≠ "" := by
  apply check_codes_ne_empty
  intro e he code hc hpre
  fin_cases he <;> simp only [List.mem_singleton] at hc <;> subst hc <;>
    first
    | exact absurd hpre (by
        rw [strStartsWith_mk_of_ne _ _ _ _ _ rfl (by decide)]
        simp)
    | (intro hlen
       rw [show (String.mk ('+' :: '9' :: t)).length = t.length + 2 from by
         simp [String.length]] at hlen
       rw [ht] at hlen
       revert hlen
       decide)

lemma format_shape (digits : List Char) (raw : String)
    (hall : ∀ c ∈ digits, Char.isDigit c = true) (hlen : 10 ≤ digits.length) :
    ∃ ds : List Char, format_russian_phone digits raw = String.mk ('+' :: ds) ∧
      (∀ c ∈ ds, Char.isDigit c = true) ∧ 10 ≤ ds.length := by
  unfold format_russian_phone
  split_ifs with h1 h2 h3 h4 h5
  · refine ⟨'7' :: digits.tail, rfl, ?_, ?_⟩
    · intro c hc
      rcases List.mem_cons.mp hc with rfl | hc
      · decide
      · exact hall c (List.mem_of_mem_tail hc)
    · rw [List.length_cons, List.length_tail, h1.2]
      omega
  · refine ⟨'7' :: digits.tail, rfl, ?_, ?_⟩
    · intro c hc
      rcases List.mem_cons.mp hc with rfl | hc
      · decide
      · exact hall c (List.mem_of_mem_tail hc)
    · rw [List.length_cons, List.length_tail, h2.2]
      omega
  · refine ⟨'7' :: digits, rfl, ?_, ?_⟩
    · intro c hc
      rcases List.mem_cons.mp hc with rfl | hc
      · decide
      · exact hall c hc
    · rw [List.length_cons, h3.2]
      omega
  · exact ⟨digits, rfl, hall, hlen⟩
  · exact ⟨digits, rfl, hall, hlen⟩
  · exfalso
    have hde : digits = [] := by
      revert h5
      cases digits <;> simp
    rw [hde] at hlen
    simp at hlen

lemma revalidate_canonical (ds : List Char) (hds : ∀ ch ∈ ds, Char.isDigit ch = true)
    (hlen : 10 ≤ ds.length)
    (hpass : validate_country_code (String.mk ('+' :: ds)) = "") :
    validate_phone (PyVal.str (String.mk ('+' :: ds))) = (some (String.mk ('+' :: ds)), "") := by
  have hdata : (String.mk ('+' :: ds)).data = '+' :: ds := rfl
  have hne : (String.mk ('+' :: ds)).data ≠ [] := by rw [hdata]; simp
  have hempty : (String.mk ('+' :: ds)).isEmpty = false := isEmpty_false_of_data _ hne
  have hcond : (isna (PyVal.str (String.mk ('+' :: ds))) ||
      !truthy (PyVal.str (String.mk ('+' :: ds)))) = false := by
    simp [isna, truthy, hempty]
  have hnospace : ∀ ch ∈ (String.mk ('+' :: ds)).data, isSpace ch = false := by
    rw [hdata]
    intro ch hch
    rcases List.mem_cons.mp hch with rfl | hch
    · decide
    · exact digit_not_space ch (hds ch hch)
  have hclean : remove_double_spaces (PyVal.str (pyStr (PyVal.str (String.mk ('+' :: ds))))) =
      String.mk ('+' :: ds) := by
    show String.mk (collapse (String.mk ('+' :: ds)).data) = String.mk ('+' :: ds)
    rw [collapse_eq_self_of_noSpace _ hnospace]
  have hfilter : (String.mk ('+' :: ds)).data.filter Char.isDigit = ds := by
    rw [hdata]
    rw [List.filter_cons_of_neg]
    · exact List.filter_eq_self.mpr hds
    · decide
  have hfmt2 : format_russian_phone ds (String.mk ('+' :: ds)) = String.mk ('+' :: ds) := by
    unfold format_russian_phone
    split_ifs with h8 h7 h9 hplus hne2
    · exfalso
      obtain ⟨t, rfl⟩ : ∃ t, ds = '8' :: t := by
        cases ds with
        | nil => cases h8.1
        | cons c cs =>
            simp only [List.head?_cons, Option.some.injEq] at h8
            exact ⟨cs, by rw [h8.1]⟩
      rw [vcc_pos _ (startsWith_plus_mk _), eight_unknown t] at hpass
      exact absurd hpass (by decide)
    · obtain ⟨t, rfl⟩ : ∃ t, ds = '7' :: t := by
        cases ds with
        | nil => cases h7.1
        | cons c cs =>
            simp only [List.head?_cons, Option.some.injEq] at h7
            exact ⟨cs, by rw [h7.1]⟩
      rfl
    · exfalso
      obtain ⟨t, rfl⟩ : ∃ t, ds = '9' :: t := by
        cases ds with
        | nil => cases h9.1
        | cons c cs =>
            simp only [List.head?_cons, Option.some.injEq] at h9
            exact ⟨cs, by rw [h9.1]⟩
      have ht : t.length = 9 := by
        have := h9.2
        simp only [List.length_cons] at this
        omega
      rw [vcc_pos _ (startsWith_plus_mk _)] at hpass
      exact nine_invalid t ht hpass
    · rfl
    · rfl
    · exfalso
      exact hplus (startsWith_plus_mk ds)
  unfold validate_phone
  rw [hcond]
  simp only [Bool.false_eq_true, if_false]
  rw [hclean]
  simp only [hfilter]
  rw [if_neg (not_lt.mpr hlen)]
  rw [hfmt2]
  rw [if_neg (by rw [hpass]; exact fun hx => hx rfl)]

/-- C8: normalization is idempotent (re-normalizing an already-normalized
string is a no-op) and phone validation is idempotent on its accepted
outputs (re-validating a canonical phone string yields the same canonical
string with no diagnostic). -/
theorem normalize_phone_idempotent :
    (∀ s : String,
      remove_double_spaces (PyVal.str (remove_double_spaces (PyVal.str s))) =
        remove_double_spaces (PyVal.str s)) ∧
    (∀ (v : PyVal) (c : String), validate_phone v = (some c, "") →
      validate_phone (PyVal.str c) = (some c, "")) := by
  constructor
  · intro s
    show String.mk (collapse (collapse s.data)) = String.mk (collapse s.data)
    exact congrArg String.mk (collapse_idem s.data)
  · intro v c h
    unfold validate_phone at h
    by_cases hb : (isna v || !truthy v) = true
    · rw [if_pos hb] at h
      exact absurd (congrArg Prod.fst h) (by simp)
    · rw [if_neg hb] at h
      dsimp only at h
      by_cases hshort : ((remove_double_spaces (PyVal.str (pyStr v))).data.filter
          Char.isDigit).length < 10
      · rw [if_pos hshort] at h
        exact absurd (congrArg Prod.fst h) (by simp)
      · rw [if_neg hshort] at h
        by_cases herr : validate_country_code (format_russian_phone
            ((remove_double_spaces (PyVal.str (pyStr v))).data.filter Char.isDigit)
            (remove_double_spaces (PyVal.str (pyStr v)))) ≠ ""
        · rw [if_pos herr] at h
          exact absurd (congrArg Prod.fst h) (by simp)
        · rw [if_neg herr] at h
          rw [not_not] at herr
          have hc : format_russian_phone
              ((remove_double_spaces (PyVal.str (pyStr v))).data.filter Char.isDigit)
              (remove_double_spaces (PyVal.str (pyStr v))) = c := by
            have := congrArg Prod.fst h
            simpa using this
          have hall : ∀ ch ∈ (remove_double_spaces (PyVal.str (pyStr v))).data.filter
              Char.isDigit, Char.isDigit ch = true :=
            fun ch hch => (List.mem_filter.mp hch).2
          obtain ⟨ds, hfmt, hds, hdslen⟩ := format_shape _ _ hall (not_lt.mp hshort)
          rw [hfmt] at hc
          subst hc
          rw [hfmt] at herr
          exact revalidate_canonical ds hds hdslen herr

/-- Witness for `normalize_phone_idempotent`: re-validating the canonical
output of a concrete successful validation. -/
theorem normalize_phone_idempotent_witness :
    validate_phone (PyVal.str "89261234567") = (some "+79261234567", "") ∧
    validate_phone (PyVal.str "+79261234567") = (some "+79261234567", "") :=
  ⟨by decide, normalize_phone_idempotent.2 (PyVal.str "89261234567") "+79261234567" (by decide)⟩
